import Mathlib

/-!
Verification of the interprocedural KeyError analysis implemented in
`src/main.rs` of the `pywrong` repository.

The analyzer consumes a tree-sitter syntax tree.  We embed such trees as a
mutual inductive: a node carries its kind tag, the UTF-8 text of its span,
its 0-based start row, and an ordered list of children, each optionally
tagged with a tree-sitter field name (`name`, `function`, `type`, ...).
Tree-sitter exposes parent pointers; in the embedding every traversal
threads the list of ancestors (nearest first), which is exactly the chain
`parent()` walks in the Rust code.
-/

namespace PyWrong

mutual
inductive PyNode : Type where
  | mk (kind : String) (text : String) (row : Nat) (children : PyChildren)
deriving DecidableEq
inductive PyChildren : Type where
  | nil
  | cons (field : Option String) (child : PyNode) (rest : PyChildren)
deriving DecidableEq
end

def PyNode.kind : PyNode → String
  | .mk k _ _ _ => k

def PyNode.text : PyNode → String
  | .mk _ t _ _ => t

def PyNode.row : PyNode → Nat
  | .mk _ _ r _ => r

def PyNode.children : PyNode → PyChildren
  | .mk _ _ _ cs => cs

/-- List of the children of a node (field tags dropped), in order. -/
def PyChildren.toList : PyChildren → List PyNode
  | .nil => []
  | .cons _ c rest => c :: PyChildren.toList rest

/-- Embedding of tree-sitter `child_by_field_name`: the first child carrying
the given field tag. -/
def child_by_field_name (cs : PyChildren) (f : String) : Option PyNode :=
  match cs with
  | .nil => none
  | .cons tag c rest => if tag = some f then some c else child_by_field_name rest f

/-- Embeds the body of the `except_clause` branch in
`is_within_keyerror_try_except` (src/main.rs lines 300-311): a clause guards
the failure when it is an `except_clause` whose declared `type` field reads
`KeyError` or `Exception`, or which has no `type` field (bare except). -/
def exceptClauseMatches (c : PyNode) : Bool :=
  c.kind == "except_clause" &&
    (match child_by_field_name c.children "type" with
     | some ty => ty.text == "KeyError" || ty.text == "Exception"
     | none => true)

/-- Scan of the immediate children of a `try_statement` performed by
`is_within_keyerror_try_except` (src/main.rs lines 296-316). -/
def anyClauseMatches : PyChildren → Bool
  | .nil => false
  | .cons _ c rest => exceptClauseMatches c || anyClauseMatches rest

/-- One step of the ancestor walk in `is_within_keyerror_try_except`
(src/main.rs lines 294-317): the current node guards the access when it is a
`try_statement` one of whose immediate clauses matches. -/
def nodeGuards (n : PyNode) : Bool :=
  n.kind == "try_statement" && anyClauseMatches n.children

/-- Embedding of `is_within_keyerror_try_except` (src/main.rs lines 291-325).
The Rust code starts at `node` itself and follows `parent()` up to the root;
`ancestors` is that parent chain, nearest parent first. -/
def is_within_keyerror_try_except (node : PyNode) (ancestors : List PyNode) : Bool :=
  (node :: ancestors).any nodeGuards

mutual
/-- Embedding of `find_unguarded_dict_accesses` (src/main.rs lines 266-289):
collects every `subscript` node in the subtree that fails the guard check.
Each collected node is paired with its ancestor chain, which stands for the
parent pointers a tree-sitter `Node` carries. -/
def find_unguarded_dict_accesses : PyNode → List PyNode → List (PyNode × List PyNode)
  | .mk k t r cs, anc =>
    (if (PyNode.mk k t r cs).kind == "subscript"
        && !(is_within_keyerror_try_except (.mk k t r cs) anc)
     then [(.mk k t r cs, anc)] else [])
      ++ findAccessesChildren cs (.mk k t r cs :: anc)
/-- Child traversal of `find_unguarded_dict_accesses` (src/main.rs lines
280-288). -/
def findAccessesChildren : PyChildren → List PyNode → List (PyNode × List PyNode)
  | .nil, _ => []
  | .cons _ c rest, anc =>
      find_unguarded_dict_accesses c anc ++ findAccessesChildren rest anc
end

/-- Embedding of the `FunctionCall` struct (src/main.rs lines 83-86): the raw
callee text plus the call node and its ancestor chain. -/
structure FunctionCall where
  name : String
  node : PyNode
  anc : List PyNode
deriving DecidableEq

mutual
/-- Embedding of `collect_function_calls` (src/main.rs lines 122-148): every
`call` node in the subtree whose `function` field exists contributes a
`FunctionCall` with the raw text of that field. -/
def collect_function_calls : PyNode → List PyNode → List FunctionCall
  | .mk k t r cs, anc =>
    (if (PyNode.mk k t r cs).kind == "call" then
       match child_by_field_name cs "function" with
       | some fn => [⟨fn.text, .mk k t r cs, anc⟩]
       | none => []
     else [])
      ++ collectCallsChildren cs (.mk k t r cs :: anc)
/-- Child traversal of `collect_function_calls` (src/main.rs lines 138-147). -/
def collectCallsChildren : PyChildren → List PyNode → List FunctionCall
  | .nil, _ => []
  | .cons _ c rest, anc =>
      collect_function_calls c anc ++ collectCallsChildren rest anc
end

/-- Embedding of the `FunctionInfo` struct (src/main.rs lines 77-81).  The
Rust struct borrows the body node; `anc` records the parent chain of that
node, which the tree-sitter node carries implicitly.  `reported` embeds the
`reported_in_function` cell. -/
structure FunctionInfo where
  node : PyNode
  anc : List PyNode
  mayRaise : Finset String
  reported : Bool
deriving DecidableEq

/-- The function table, a name-keyed map.  The Rust code uses a `HashMap`;
we model it as an association list with unique keys, insertion replacing an
existing binding in place and otherwise appending. -/
abbrev FnTable := List (String × FunctionInfo)

/-- Embedding of `HashMap::insert`: replace the first binding of the key if
present, otherwise append the new binding. -/
def insertAL (k : String) (v : FunctionInfo) : FnTable → FnTable
  | [] => [(k, v)]
  | (k0, v0) :: rest =>
      if k0 = k then (k, v) :: rest else (k0, v0) :: insertAL k v rest

/-- Embedding of `HashMap::get`. -/
def lookupAL : FnTable → String → Option FunctionInfo
  | [], _ => none
  | (k0, v0) :: rest, k => if k0 = k then some v0 else lookupAL rest k

/-- Key list of the table, standing for `HashMap::keys`; the genuine
`HashMap` yields its keys in an unspecified order, so theorems about the
passes quantify over the order where it matters. -/
def keysOf (t : FnTable) : List String := t.map Prod.fst

mutual
/-- Embedding of `collect_functions` (src/main.rs lines 88-120): pre-order
walk inserting every `function_definition` node under the text of its `name`
field.  The Rust code unwraps the `name` field; a missing field panics, which
the embedding surfaces as `none` (the whole analysis of the file dies). -/
def collect_functions (node : PyNode) (anc : List PyNode) (t : FnTable) :
    Option FnTable :=
  match node with
  | .mk k s r cs =>
    match
      (if (PyNode.mk k s r cs).kind == "function_definition" then
         match child_by_field_name cs "name" with
         | some nameNode =>
             some (insertAL nameNode.text ⟨.mk k s r cs, anc, ∅, false⟩ t)
         | none => none
       else some t) with
    | none => none
    | some t1 => collectFunctionsChildren cs (.mk k s r cs :: anc) t1
/-- Child traversal of `collect_functions` (src/main.rs lines 110-119). -/
def collectFunctionsChildren : PyChildren → List PyNode → FnTable → Option FnTable
  | .nil, _, t => some t
  | .cons _ c rest, anc, t =>
    match collect_functions c anc t with
    | none => none
    | some t1 => collectFunctionsChildren rest anc t1
end

/-- The per-function contribution computed by one iteration of the inner
loop of `determine_exceptions` (src/main.rs lines 156-182): the
`new_exceptions` set.  The first fold is the loop over unguarded accesses
(lines 162-168), inserting `KeyError` for every collected access that again
fails the guard check; the second fold is the loop over call sites (lines
171-182), unioning the current `may_raise` of every known callee whose set
is non-empty when the call site is unguarded. -/
def new_exceptions (t : FnTable) (fe : FunctionInfo) : Finset String :=
  let afterLocal : Finset String :=
    (find_unguarded_dict_accesses fe.node fe.anc).foldl
      (fun acc a =>
        if !(is_within_keyerror_try_except a.1 a.2) then insert "KeyError" acc
        else acc) ∅
  (collect_function_calls fe.node fe.anc).foldl
    (fun acc call =>
      match lookupAL t call.name with
      | some called =>
          if called.mayRaise ≠ ∅
              ∧ !(is_within_keyerror_try_except call.node call.anc) then
            acc ∪ called.mayRaise
          else acc
      | none => acc) afterLocal

/-- Embedding of the body of the `for func_name in &function_names` loop in
`determine_exceptions` (src/main.rs lines 155-194): compute `new_exceptions`
for the named function and, when it is not a subset of the current
`may_raise`, union it in and raise the `changed` flag.  A name absent from
the table would make the Rust code panic on `unwrap`; it never happens
because the names are drawn from the key set, and the embedding leaves the
table unchanged in that case. -/
def passStep (t : FnTable) (changed : Bool) (name : String) : FnTable × Bool :=
  match lookupAL t name with
  | none => (t, changed)
  | some fe =>
    let newExc := new_exceptions t fe
    if ¬ (newExc ⊆ fe.mayRaise) then
      (insertAL name { fe with mayRaise := fe.mayRaise ∪ newExc } t, true)
    else (t, changed)

/-- One full pass of the fixed-point loop (src/main.rs lines 154-194),
visiting the function names in the given order and threading the `changed`
flag. -/
def runPassAux : List String → FnTable → Bool → FnTable × Bool
  | [], t, changed => (t, changed)
  | name :: rest, t, changed =>
    let p := passStep t changed name
    runPassAux rest p.1 p.2

/-- One pass started with `changed = false`, as at the top of the `while`
loop (src/main.rs line 154). -/
def runPass (order : List String) (t : FnTable) : FnTable × Bool :=
  runPassAux order t false

/-! Support for the termination of the `while changed` loop of
`determine_exceptions` (src/main.rs lines 153-195).  The loop only ever
grows the `may_raise` sets, and every label it writes is either `KeyError`
or a label already present in some set, so the sum of the cardinalities of
the missing parts of the sets (relative to that finite universe) strictly
decreases whenever a pass reports a change. -/

/-- Union of the `may_raise` sets of all entries of the table. -/
def labelsOf (t : FnTable) : Finset String :=
  t.foldr (fun e acc => e.2.mayRaise ∪ acc) ∅

/-- The finite universe of labels reachable from a table state. -/
def univOf (t : FnTable) : Finset String := insert "KeyError" (labelsOf t)

/-- Entry-wise growth: same key and same static data, `may_raise` grows. -/
def entGrow (a b : String × FunctionInfo) : Prop :=
  b.1 = a.1 ∧ b.2.node = a.2.node ∧ b.2.anc = a.2.anc
    ∧ b.2.reported = a.2.reported ∧ a.2.mayRaise ⊆ b.2.mayRaise

/-- Table growth: the two tables have the same shape and each entry grew. -/
def TGrow (t s : FnTable) : Prop := List.Forall₂ entGrow t s

theorem entGrow_refl (a : String × FunctionInfo) : entGrow a a :=
  ⟨rfl, rfl, rfl, rfl, Finset.Subset.refl _⟩

theorem entGrow_trans {a b c : String × FunctionInfo}
    (h1 : entGrow a b) (h2 : entGrow b c) : entGrow a c :=
  ⟨h2.1.trans h1.1, h2.2.1.trans h1.2.1, h2.2.2.1.trans h1.2.2.1,
    h2.2.2.2.1.trans h1.2.2.2.1, h1.2.2.2.2.trans h2.2.2.2.2⟩

theorem TGrow_refl (t : FnTable) : TGrow t t :=
  List.forall₂_same.2 (fun a _ => entGrow_refl a)

theorem TGrow_trans {t s u : FnTable} (h1 : TGrow t s) (h2 : TGrow s u) :
    TGrow t u := by
  induction h1 generalizing u with
  | nil => cases h2; exact List.Forall₂.nil
  | cons hab hrest ih =>
    cases h2 with
    | cons hbc hrest2 => exact List.Forall₂.cons (entGrow_trans hab hbc) (ih hrest2)

theorem lookupAL_mem {t : FnTable} {name : String} {fe : FunctionInfo}
    (h : lookupAL t name = some fe) : (name, fe) ∈ t := by
  induction t with
  | nil => simp [lookupAL] at h
  | cons e rest ih =>
    obtain ⟨k0, v0⟩ := e
    simp only [lookupAL] at h
    split at h
    · next heq =>
        cases h
        subst heq
        exact List.mem_cons_self _ _
    · exact List.mem_cons_of_mem _ (ih h)

theorem mayRaise_subset_labelsOf {t : FnTable} {e : String × FunctionInfo}
    (h : e ∈ t) : e.2.mayRaise ⊆ labelsOf t := by
  induction t with
  | nil => cases h
  | cons e0 rest ih =>
    rcases List.mem_cons.1 h with h | h
    · subst h; exact Finset.subset_union_left
    · exact (ih h).trans Finset.subset_union_right

theorem labelsOf_grow {t s : FnTable} (h : TGrow t s) :
    labelsOf t ⊆ labelsOf s := by
  induction h with
  | nil => exact Finset.Subset.refl _
  | cons hab _ ih =>
    exact Finset.union_subset_union hab.2.2.2.2 ih

/-- Every entry of the table stays below the given label universe. -/
def entriesBelow (t : FnTable) (U : Finset String) : Prop :=
  ∀ e ∈ t, e.2.mayRaise ⊆ U

theorem entriesBelow_univOf (t : FnTable) : entriesBelow t (univOf t) :=
  fun _e he => (mayRaise_subset_labelsOf he).trans (Finset.subset_insert _ _)

theorem labelsOf_subset {t : FnTable} {U : Finset String}
    (h : entriesBelow t U) : labelsOf t ⊆ U := by
  induction t with
  | nil => simp [labelsOf]
  | cons e rest ih =>
    exact Finset.union_subset (h e (List.mem_cons_self _ _))
      (ih (fun e0 he0 => h e0 (List.mem_cons_of_mem _ he0)))

theorem new_exceptions_localFold_subset
    (l : List (PyNode × List PyNode)) (acc : Finset String) :
    l.foldl
      (fun acc a =>
        if !(is_within_keyerror_try_except a.1 a.2) then insert "KeyError" acc
        else acc) acc ⊆ insert "KeyError" acc := by
  induction l generalizing acc with
  | nil => exact Finset.subset_insert _ _
  | cons a rest ih =>
    simp only [List.foldl]
    refine (ih _).trans ?_
    by_cases hc : !(is_within_keyerror_try_except a.1 a.2)
    · rw [if_pos hc, Finset.insert_idem]
    · rw [if_neg hc]

theorem new_exceptions_callFold_subset (t : FnTable)
    (l : List FunctionCall) (acc : Finset String) :
    l.foldl
      (fun acc call =>
        match lookupAL t call.name with
        | some called =>
            if called.mayRaise ≠ ∅
                ∧ !(is_within_keyerror_try_except call.node call.anc) then
              acc ∪ called.mayRaise
            else acc
        | none => acc) acc ⊆ acc ∪ labelsOf t := by
  induction l generalizing acc with
  | nil => exact Finset.subset_union_left
  | cons call rest ih =>
    simp only [List.foldl]
    refine (ih _).trans (Finset.union_subset ?_ Finset.subset_union_right)
    cases hlk : lookupAL t call.name with
    | none =>
        simp only [hlk]
        exact Finset.subset_union_left
    | some called =>
      simp only [hlk]
      by_cases hc : called.mayRaise ≠ ∅
          ∧ !(is_within_keyerror_try_except call.node call.anc)
      · rw [if_pos hc]
        exact Finset.union_subset Finset.subset_union_left
          (((mayRaise_subset_labelsOf (lookupAL_mem hlk)).trans
            Finset.subset_union_right))
      · rw [if_neg hc]; exact Finset.subset_union_left

theorem new_exceptions_subset (t : FnTable) (fe : FunctionInfo) :
    new_exceptions t fe ⊆ univOf t := by
  simp only [new_exceptions]
  refine (new_exceptions_callFold_subset t _ _).trans
    (Finset.union_subset ?_ (Finset.subset_insert _ _))
  refine (new_exceptions_localFold_subset _ _).trans ?_
  exact Finset.insert_subset_insert _ (Finset.empty_subset _)

/-- Sum over the table of the numbers of labels of `U` still missing from
each `may_raise` set: the termination measure of the fixed-point loop. -/
def measureOf (U : Finset String) (t : FnTable) : Nat :=
  (t.map (fun e => (U \ e.2.mayRaise).card)).sum

theorem insertAL_grow {t : FnTable} {name : String} {fe : FunctionInfo}
    (h : lookupAL t name = some fe) (m : Finset String) (hm : fe.mayRaise ⊆ m) :
    TGrow t (insertAL name { fe with mayRaise := m } t) := by
  induction t with
  | nil => simp [lookupAL] at h
  | cons e rest ih =>
    obtain ⟨k0, v0⟩ := e
    simp only [lookupAL] at h
    simp only [insertAL]
    split at h
    · next heq =>
        cases h
        rw [if_pos heq]
        exact List.Forall₂.cons
          ⟨heq.symm, rfl, rfl, rfl, hm⟩ (TGrow_refl rest)
    · next hne =>
        rw [if_neg hne]
        exact List.Forall₂.cons (entGrow_refl _) (ih h)

theorem entriesBelow_insertAL {t : FnTable} {U : Finset String} {k : String}
    {v : FunctionInfo} (h : entriesBelow t U) (hv : v.mayRaise ⊆ U) :
    entriesBelow (insertAL k v t) U := by
  induction t with
  | nil =>
    intro e he
    simp only [insertAL, List.mem_singleton] at he
    subst he; exact hv
  | cons e0 rest ih =>
    obtain ⟨k0, v0⟩ := e0
    intro e he
    simp only [insertAL] at he
    split at he
    · rcases List.mem_cons.1 he with h0 | h0
      · subst h0; exact hv
      · exact h _ (List.mem_cons_of_mem _ h0)
    · rcases List.mem_cons.1 he with h0 | h0
      · subst h0; exact h _ (List.mem_cons_self _ _)
      · exact ih (fun e1 he1 => h e1 (List.mem_cons_of_mem _ he1)) _ h0

/-- The two possible outcomes of one step of the pass loop: either the table
and flag are untouched, or the named entry strictly gains labels and the
flag is raised. -/
theorem passStep_cases (t : FnTable) (ch : Bool) (name : String) :
    passStep t ch name = (t, ch)
    ∨ ∃ fe, lookupAL t name = some fe
        ∧ ¬ (new_exceptions t fe ⊆ fe.mayRaise)
        ∧ passStep t ch name =
            (insertAL name
              { fe with mayRaise := fe.mayRaise ∪ new_exceptions t fe } t, true) := by
  simp only [passStep]
  split
  · exact Or.inl rfl
  · next fe hlk =>
    split
    · next hsub => exact Or.inr ⟨fe, hlk, hsub, rfl⟩
    · exact Or.inl rfl

theorem passStep_grow (t : FnTable) (ch : Bool) (name : String) :
    TGrow t (passStep t ch name).1 := by
  rcases passStep_cases t ch name with heq | ⟨fe, hlk, _hsub, heq⟩
  · rw [heq]; exact TGrow_refl t
  · rw [heq]
    exact insertAL_grow hlk _ Finset.subset_union_left

theorem passStep_below {t : FnTable} {U : Finset String} {ch : Bool}
    {name : String} (h : entriesBelow t U) (hKE : "KeyError" ∈ U) :
    entriesBelow (passStep t ch name).1 U := by
  rcases passStep_cases t ch name with heq | ⟨fe, hlk, _hsub, heq⟩
  · rw [heq]; exact h
  · rw [heq]
    refine entriesBelow_insertAL h (Finset.union_subset ?_ ?_)
    · exact h _ (lookupAL_mem hlk)
    · refine (new_exceptions_subset t fe).trans ?_
      exact Finset.insert_subset hKE (labelsOf_subset h)

theorem runPassAux_grow (order : List String) :
    ∀ (t : FnTable) (ch : Bool), TGrow t (runPassAux order t ch).1 := by
  induction order with
  | nil => intro t ch; exact TGrow_refl t
  | cons name rest ih =>
    intro t ch
    exact TGrow_trans (passStep_grow t ch name) (ih _ _)

theorem runPassAux_below {U : Finset String} (hKE : "KeyError" ∈ U)
    (order : List String) :
    ∀ (t : FnTable) (ch : Bool), entriesBelow t U →
      entriesBelow (runPassAux order t ch).1 U := by
  induction order with
  | nil => intro t ch h; exact h
  | cons name rest ih =>
    intro t ch h
    exact ih _ _ (passStep_below h hKE)

theorem measureOf_le_of_TGrow {U : Finset String} {t s : FnTable}
    (h : TGrow t s) : measureOf U s ≤ measureOf U t := by
  induction h with
  | nil => exact Nat.le_refl _
  | cons hab _ ih =>
    simp only [measureOf, List.map, List.sum_cons] at *
    exact Nat.add_le_add
      (Finset.card_le_card
        (Finset.sdiff_subset_sdiff (Finset.Subset.refl U) hab.2.2.2.2)) ih

theorem measureOf_update_lt {t : FnTable} {name : String} {fe : FunctionInfo}
    {U m : Finset String} (hlk : lookupAL t name = some fe)
    (hm : fe.mayRaise ⊆ m) (hmU : m ⊆ U) (hstrict : ¬ m ⊆ fe.mayRaise) :
    measureOf U (insertAL name { fe with mayRaise := m } t) < measureOf U t := by
  induction t with
  | nil => simp [lookupAL] at hlk
  | cons e rest ih =>
    obtain ⟨k0, v0⟩ := e
    simp only [lookupAL] at hlk
    simp only [insertAL]
    split at hlk
    · next heq =>
        injection hlk with hv0
        subst hv0
        rw [if_pos heq]
        simp only [measureOf, List.map, List.sum_cons]
        refine Nat.add_lt_add_right ?_ _
        apply Finset.card_lt_card
        rw [Finset.ssubset_def]
        refine ⟨Finset.sdiff_subset_sdiff (Finset.Subset.refl U) hm,
          fun hcon => ?_⟩
        obtain ⟨x, hxm, hxnot⟩ := Finset.not_subset.1 hstrict
        have hx2 := hcon (Finset.mem_sdiff.2 ⟨hmU hxm, hxnot⟩)
        exact (Finset.mem_sdiff.1 hx2).2 hxm
    · next hne =>
        rw [if_neg hne]
        simp only [measureOf, List.map, List.sum_cons]
        exact Nat.add_lt_add_left (ih hlk) _

theorem runPassAux_measure {U : Finset String} (hKE : "KeyError" ∈ U)
    (order : List String) :
    ∀ (t : FnTable) (ch : Bool), entriesBelow t U →
      (runPassAux order t ch).2 = true →
      ch = true ∨ measureOf U (runPassAux order t ch).1 < measureOf U t := by
  induction order with
  | nil =>
    intro t ch _ hflag
    exact Or.inl hflag
  | cons name rest ih =>
    intro t ch hb hflag
    simp only [runPassAux] at hflag ⊢
    rcases passStep_cases t ch name with heq | ⟨fe, hlk, hsub, heq⟩
    · rw [heq] at hflag ⊢
      exact ih t ch hb hflag
    · rw [heq] at hflag ⊢
      right
      refine lt_of_le_of_lt
        (measureOf_le_of_TGrow (runPassAux_grow rest _ _)) ?_
      have hmU : fe.mayRaise ∪ new_exceptions t fe ⊆ U :=
        Finset.union_subset (hb _ (lookupAL_mem hlk))
          ((new_exceptions_subset t fe).trans
            (Finset.insert_subset hKE (labelsOf_subset hb)))
      have hstrict : ¬ (fe.mayRaise ∪ new_exceptions t fe ⊆ fe.mayRaise) :=
        fun hcon => hsub (Finset.subset_union_right.trans hcon)
      exact measureOf_update_lt hlk Finset.subset_union_left hmU hstrict

theorem runPass_measure {U : Finset String} (hKE : "KeyError" ∈ U)
    {order : List String} {t : FnTable} (hb : entriesBelow t U)
    (hflag : (runPass order t).2 = true) :
    measureOf U (runPass order t).1 < measureOf U t := by
  rcases runPassAux_measure hKE order t false hb hflag with h | h
  · cases h
  · exact h

theorem univOf_runPass (order : List String) (t : FnTable) :
    univOf (runPass order t).1 = univOf t := by
  apply Finset.Subset.antisymm
  · refine Finset.insert_subset (Finset.mem_insert_self _ _) ?_
    exact labelsOf_subset
      (runPassAux_below (Finset.mem_insert_self _ _) order t false
        (entriesBelow_univOf t))
  · exact Finset.insert_subset_insert _
      (labelsOf_grow (runPassAux_grow order t false))

/-- Embedding of `determine_exceptions` (src/main.rs lines 150-196): the
`while changed` fixed-point loop.  The `order` parameter stands for the
cloned key list of line 151, whose order the `HashMap` leaves unspecified.
Totality of this definition is the termination argument: every pass that
reports a change strictly shrinks `measureOf`. -/
def determine_exceptions (order : List String) (t : FnTable) : FnTable :=
  if _h : (runPass order t).2 = true then
    determine_exceptions order (runPass order t).1
  else (runPass order t).1
termination_by measureOf (univOf t) t
decreasing_by
  rw [univOf_runPass]
  exact runPass_measure (Finset.mem_insert_self _ _) (entriesBelow_univOf t) _h

/-- The `may_raise` set the table assigns to a name, empty if absent. -/
def mayRaiseOf (t : FnTable) (name : String) : Finset String :=
  match lookupAL t name with
  | some fe => fe.mayRaise
  | none => ∅

/-- The `reported_in_function` flag the table assigns to a name. -/
def reportedOf (t : FnTable) (name : String) : Bool :=
  match lookupAL t name with
  | some fe => fe.reported
  | none => false

theorem TGrow_lookup {t s : FnTable} (h : TGrow t s) (name : String) :
    (lookupAL t name = none ∧ lookupAL s name = none)
    ∨ ∃ a b, lookupAL t name = some a ∧ lookupAL s name = some b
        ∧ b.node = a.node ∧ b.anc = a.anc ∧ b.reported = a.reported
        ∧ a.mayRaise ⊆ b.mayRaise := by
  induction h with
  | nil => exact Or.inl ⟨rfl, rfl⟩
  | cons hab hrest ih =>
    rename_i a b l1 l2
    obtain ⟨k1, v1⟩ := a
    obtain ⟨k2, v2⟩ := b
    obtain ⟨hk, hnode, hanc, hrep, hmr⟩ := hab
    have hk2 : k2 = k1 := hk
    by_cases hkn : k1 = name
    · subst hkn
      subst hk2
      right
      exact ⟨v1, v2, by simp [lookupAL], by simp [lookupAL], hnode, hanc,
        hrep, hmr⟩
    · subst hk2
      simp only [lookupAL, if_neg hkn]
      exact ih

theorem mayRaiseOf_mono {t s : FnTable} (h : TGrow t s) (name : String) :
    mayRaiseOf t name ⊆ mayRaiseOf s name := by
  rcases TGrow_lookup h name with ⟨h1, h2⟩ | ⟨a, b, h1, h2, _, _, _, hmr⟩
  · simp [mayRaiseOf, h1, h2]
  · simpa [mayRaiseOf, h1, h2] using hmr

/-- Once the `changed` flag is raised it stays raised for the rest of the
pass (src/main.rs line 191 only ever sets it to `true`). -/
theorem runPassAux_sticky (order : List String) :
    ∀ t : FnTable, (runPassAux order t true).2 = true := by
  induction order with
  | nil => intro t; rfl
  | cons name rest ih =>
    intro t
    simp only [runPassAux]
    rcases passStep_cases t true name with heq | ⟨fe, _hlk, _hsub, heq⟩
    · rw [heq]; exact ih t
    · rw [heq]; exact ih _

/-- Refinement of `passStep_cases` keeping the reason for the identity
outcome. -/
theorem passStep_cases3 (t : FnTable) (ch : Bool) (name : String) :
    (lookupAL t name = none ∧ passStep t ch name = (t, ch))
    ∨ (∃ fe, lookupAL t name = some fe
        ∧ new_exceptions t fe ⊆ fe.mayRaise ∧ passStep t ch name = (t, ch))
    ∨ (∃ fe, lookupAL t name = some fe
        ∧ ¬ (new_exceptions t fe ⊆ fe.mayRaise)
        ∧ passStep t ch name =
            (insertAL name
              { fe with mayRaise := fe.mayRaise ∪ new_exceptions t fe } t, true)) := by
  simp only [passStep]
  split
  · next hlk => exact Or.inl ⟨hlk, rfl⟩
  · next fe hlk =>
    split
    · next hsub => exact Or.inr (Or.inr ⟨fe, hlk, hsub, rfl⟩)
    · next hsub => exact Or.inr (Or.inl ⟨fe, hlk, not_not.1 hsub, rfl⟩)

/-- A pass that ends with `changed = false` started with it `false`, left
the table untouched, and certifies that every visited entry already
contained its `new_exceptions` contribution. -/
theorem runPassAux_false (order : List String) :
    ∀ (t : FnTable) (ch : Bool), (runPassAux order t ch).2 = false →
      ch = false ∧ (runPassAux order t ch).1 = t
        ∧ ∀ name ∈ order, ∀ fe, lookupAL t name = some fe →
            new_exceptions t fe ⊆ fe.mayRaise := by
  induction order with
  | nil =>
    intro t ch h
    refine ⟨h, rfl, ?_⟩
    intro name hmem
    cases hmem
  | cons name rest ih =>
    intro t ch h
    simp only [runPassAux] at h ⊢
    rcases passStep_cases3 t ch name with ⟨hlk, heq⟩ | ⟨fe, hlk, hsub, heq⟩
      | ⟨fe, hlk, _hsub, heq⟩
    · rw [heq] at h ⊢
      obtain ⟨hch, hfix, hrest⟩ := ih t ch h
      refine ⟨hch, hfix, ?_⟩
      intro n hmem fe0 hlk0
      rcases List.mem_cons.1 hmem with hn | hn
      · subst hn; rw [hlk] at hlk0; cases hlk0
      · exact hrest n hn fe0 hlk0
    · rw [heq] at h ⊢
      obtain ⟨hch, hfix, hrest⟩ := ih t ch h
      refine ⟨hch, hfix, ?_⟩
      intro n hmem fe0 hlk0
      rcases List.mem_cons.1 hmem with hn | hn
      · subst hn
        rw [hlk] at hlk0
        injection hlk0 with hfe
        subst hfe
        exact hsub
      · exact hrest n hn fe0 hlk0
    · rw [heq] at h
      rw [runPassAux_sticky rest _] at h
      cases h

/-- Iterating full passes, as the `while` loop does pass after pass. -/
def passIter (order : List String) : Nat → FnTable → FnTable
  | 0, t => t
  | n + 1, t => passIter order n (runPass order t).1

/-- The loop of `determine_exceptions` runs some finite number of passes
and stops exactly when a pass makes no progress. -/
theorem determine_exceptions_exists_iter (order : List String) (t : FnTable) :
    ∃ n, determine_exceptions order t = passIter order n t
      ∧ (runPass order (passIter order n t)).2 = false := by
  refine determine_exceptions.induct order
    (fun t => ∃ n, determine_exceptions order t = passIter order n t
      ∧ (runPass order (passIter order n t)).2 = false) ?_ ?_ t
  · intro x h ih
    obtain ⟨n, heq, hstop⟩ := ih
    refine ⟨n + 1, ?_, hstop⟩
    conv_lhs => rw [determine_exceptions]
    rw [dif_pos h]
    exact heq
  · intro x h
    have hfl : (runPass order x).2 = false := by
      cases hb : (runPass order x).2
      · rfl
      · exact absurd hb h
    refine ⟨0, ?_, hfl⟩
    conv_lhs => rw [determine_exceptions]
    rw [dif_neg h]
    exact (runPassAux_false order x false hfl).2.1

theorem passIter_grow (order : List String) :
    ∀ (n : Nat) (t : FnTable), TGrow t (passIter order n t) := by
  intro n
  induction n with
  | zero => intro t; exact TGrow_refl t
  | succ n ih =>
    intro t
    exact TGrow_trans (runPassAux_grow order t false) (ih _)

theorem determine_exceptions_grow (order : List String) (t : FnTable) :
    TGrow t (determine_exceptions order t) := by
  obtain ⟨n, heq, _⟩ := determine_exceptions_exists_iter order t
  rw [heq]
  exact passIter_grow order n t

/-- After `determine_exceptions` returns, a further pass reports no
change. -/
theorem determine_exceptions_stable (order : List String) (t : FnTable) :
    (runPass order (determine_exceptions order t)).2 = false := by
  obtain ⟨n, heq, hstop⟩ := determine_exceptions_exists_iter order t
  rw [heq]
  exact hstop

/-- The table `determine_exceptions` returns is closed: for every visited
name, the recomputed contribution is already contained in `may_raise`. -/
theorem determine_exceptions_closed (order : List String) (t : FnTable) :
    ∀ name ∈ order, ∀ fe,
      lookupAL (determine_exceptions order t) name = some fe →
      new_exceptions (determine_exceptions order t) fe ⊆ fe.mayRaise := by
  have hstop := determine_exceptions_stable order t
  exact (runPassAux_false order _ false hstop).2.2

theorem determine_exceptions_stop {order : List String} {t : FnTable}
    (h : (runPass order t).2 = false) : determine_exceptions order t = t := by
  conv_lhs => rw [determine_exceptions]
  rw [dif_neg (by simp [h])]
  exact (runPassAux_false order t false h).2.1

theorem determine_exceptions_go {order : List String} {t : FnTable}
    (h : (runPass order t).2 = true) :
    determine_exceptions order t =
      determine_exceptions order (runPass order t).1 := by
  conv_lhs => rw [determine_exceptions]
  rw [dif_pos h]

/-! The diagnostic reporter (src/main.rs lines 198-264) and the per-file
driver (lines 33-75).  Console colouring and formatting are outside the
scope of the specification, so a warning is modelled as a structured value
carrying exactly the data interpolated into the printed line. -/

/-- One printed warning line. -/
inductive Warning where
  | possibleKeyError (file : String) (line : Nat) (inFunction : String)
  | possibleUnhandledCall (file : String) (line : Nat) (labels : Finset String)
      (callee : String) (caller : String)
deriving DecidableEq

/-- The mutable state threaded through the reporting loop of `analyze_file`
(src/main.rs lines 62-72): the function table (whose `reported_in_function`
cells the reporter flips), the dedup set `reported_calls`, and the emitted
warnings in order. -/
structure ReportState where
  functions : FnTable
  reported_calls : Finset (Nat × String)
  output : List Warning
deriving DecidableEq

/-- Embedding of `func_info.reported_in_function.set(true)` (src/main.rs
line 230). -/
def setReported (t : FnTable) (name : String) : FnTable :=
  match lookupAL t name with
  | some fe => insertAL name { fe with reported := true } t
  | none => t

/-- The local warning loop of `analyze_function` (src/main.rs lines
212-227): one warning per collected access that again fails the guard
check, suppressed for the synthetic `<module>` entry; nothing at all when
the collected list is empty. -/
def localWarnings (filename function_name : String)
    (unguarded : List (PyNode × List PyNode)) : List Warning :=
  if unguarded.isEmpty then []
  else
    unguarded.foldl (fun ws a =>
      if !(is_within_keyerror_try_except a.1 a.2) then
        if function_name ≠ "<module>" then
          ws ++ [Warning.possibleKeyError filename (a.1.row + 1) function_name]
        else ws
      else ws) []

/-- One iteration of the call-site loop of `analyze_function` (src/main.rs
lines 237-262): for a call to a known function whose `may_raise` is
non-empty at an unguarded call site, emit a warning unless the
`(line, name)` key was already reported or the callee already reported
locally. -/
def callStep (filename caller : String) (t1 : FnTable)
    (acc : Finset (Nat × String) × List Warning) (call : FunctionCall) :
    Finset (Nat × String) × List Warning :=
  match lookupAL t1 call.name with
  | some called =>
    if called.mayRaise ≠ ∅
        ∧ !(is_within_keyerror_try_except call.node call.anc) then
      if (call.node.row + 1, call.name) ∉ acc.1
          ∧ called.reported = false then
        (insert (call.node.row + 1, call.name) acc.1,
         acc.2 ++ [Warning.possibleUnhandledCall filename
           (call.node.row + 1) called.mayRaise call.name caller])
      else acc
    else acc
  | none => acc

/-- Embedding of `analyze_function` (src/main.rs lines 198-264).  The Rust
function unwraps the lookup of `function_name`; the name always comes from
the key set, so the `none` branch is dead and modelled as the identity.
First the local pass (lines 209-231): emit the local warnings and, when the
collected access list is non-empty, set the `reported_in_function` flag.
Then the call-site pass (lines 234-263), reading the table with the flag
already set. -/
def analyze_function (filename : String) (function_name : String)
    (st : ReportState) : ReportState :=
  match lookupAL st.functions function_name with
  | none => st
  | some fe =>
    let unguarded := find_unguarded_dict_accesses fe.node fe.anc
    let t1 := if unguarded.isEmpty then st.functions
              else setReported st.functions function_name
    let res :=
      (collect_function_calls fe.node fe.anc).foldl
        (callStep filename function_name t1) (st.reported_calls, [])
    { functions := t1, reported_calls := res.1,
      output := st.output ++ localWarnings filename function_name unguarded
        ++ res.2 }

/-- The reporting loop of `analyze_file` (src/main.rs lines 63-72), visiting
the function names in the given order.  The genuine loop iterates
`functions.keys()`, whose order the `HashMap` leaves unspecified. -/
def analyze_functions_order (filename : String) (order : List String)
    (st : ReportState) : ReportState :=
  order.foldl (fun s n => analyze_function filename n s) st

/-- Embedding of `analyze_file` after parsing (src/main.rs lines 44-74):
collect the functions, add the synthetic `<module>` entry whose body is the
tree root, run the propagator, then run the reporting loop.  `passOrder`
and `reportOrder` stand for the two unspecified `HashMap` key iteration
orders; `none` models the panic on a `function_definition` without a `name`
field. -/
def analyze_file (filename : String) (tree : PyNode)
    (passOrder reportOrder : List String) : Option ReportState :=
  match collect_functions tree [] [] with
  | none => none
  | some t0 =>
    let t1 := insertAL "<module>" ⟨tree, [], ∅, false⟩ t0
    let t2 := determine_exceptions passOrder t1
    some (analyze_functions_order filename reportOrder
      { functions := t2, reported_calls := ∅, output := [] })

/-- `analyze_file` with both iteration orders instantiated to the canonical
key order of the table. -/
def analyze_file_keys (filename : String) (tree : PyNode) : Option ReportState :=
  match collect_functions tree [] [] with
  | none => none
  | some t0 =>
    let t1 := insertAL "<module>" ⟨tree, [], ∅, false⟩ t0
    analyze_file filename tree (keysOf t1) (keysOf t1)

/-- One observable event of a run of `main`. -/
inductive RunEvent where
  | readErrorLine (file : String)
  | fileOutput (file : String) (warnings : List Warning)
deriving DecidableEq

/-- Embedding of the file loop of `main` (src/main.rs lines 17-28) together
with the parse step at the top of `analyze_file` (lines 35-42).  `readF`
models `fs::read_to_string` (`none` is a read error) and `parseF` models
`Parser::parse` (`none` is a parse failure).  On a read error the loop
prints an error line naming the file and continues.  A parse failure hits
`parser.parse(source_code, None).unwrap()`, and a `function_definition`
without a `name` field hits the `unwrap` in `collect_functions`; both
panic, killing the whole process, which the `true` flag records (no later
file is processed).  `analyze_file` can only fail by panicking, so the
`Err` branch of line 20 is dead code and has no event constructor. -/
def runMain (readF : String → Option String) (parseF : String → Option PyNode) :
    List String → List RunEvent × Bool
  | [] => ([], false)
  | f :: fs =>
    match readF f with
    | none =>
      let r := runMain readF parseF fs
      (RunEvent.readErrorLine f :: r.1, r.2)
    | some src =>
      match parseF src with
      | none => ([], true)
      | some tree =>
        match analyze_file_keys f tree with
        | none => ([], true)
        | some st =>
          let r := runMain readF parseF fs
          (RunEvent.fileOutput f st.output :: r.1, r.2)

/-! Concrete syntax trees used by witnesses and counterexamples, built with
small helpers shaped like the tree-sitter Python grammar nodes the code
inspects. -/

def pyIdent (s : String) (r : Nat) : PyNode := .mk "identifier" s r .nil

def pySubscript (r : Nat) : PyNode := .mk "subscript" "d[k]" r .nil

def pyCall (callee : String) (r : Nat) : PyNode :=
  .mk "call" (callee ++ "()") r (.cons (some "function") (pyIdent callee r) .nil)

def pyBlock (r : Nat) (stmts : PyChildren) : PyNode := .mk "block" "" r stmts

def pyFuncDef (name : String) (r : Nat) (body : PyNode) : PyNode :=
  .mk "function_definition" ("def " ++ name) r
    (.cons (some "name") (pyIdent name r) (.cons (some "body") body .nil))

def pyTry (r : Nat) (body : PyNode) (handler : PyNode) : PyNode :=
  .mk "try_statement" "try" r
    (.cons (some "body") body (.cons none handler .nil))

def pyExceptTyped (ty : String) (r : Nat) (body : PyNode) : PyNode :=
  .mk "except_clause" "except" r
    (.cons (some "type") (pyIdent ty r) (.cons none body .nil))

def pyExceptBare (r : Nat) (body : PyNode) : PyNode :=
  .mk "except_clause" "except" r (.cons none body .nil)

def pyModule (cs : PyChildren) : PyNode := .mk "module" "" 0 cs

/-- A file with `def C` holding an unguarded subscript, `def B` calling `C`,
and `def A` calling `B`, with no try statement anywhere. -/
def treeABC : PyNode :=
  pyModule
    (.cons none (pyFuncDef "C" 0 (pyBlock 1 (.cons none (pySubscript 1) .nil)))
      (.cons none (pyFuncDef "B" 2 (pyBlock 3 (.cons none (pyCall "C" 3) .nil)))
        (.cons none (pyFuncDef "A" 4 (pyBlock 5 (.cons none (pyCall "B" 5) .nil)))
          .nil)))

/-- A file with `def G` holding an unguarded subscript and `def F` calling
`G` with no guard. -/
def treeFG : PyNode :=
  pyModule
    (.cons none (pyFuncDef "G" 0 (pyBlock 1 (.cons none (pySubscript 1) .nil)))
      (.cons none (pyFuncDef "F" 2 (pyBlock 3 (.cons none (pyCall "G" 3) .nil)))
        .nil))

/-- A file whose single function wraps its subscript in
`try ... except ValueError`. -/
def treeVE : PyNode :=
  pyModule (.cons none (pyFuncDef "f" 0
    (pyBlock 1 (.cons none
      (pyTry 1 (pyBlock 2 (.cons none (pySubscript 2) .nil))
        (pyExceptTyped "ValueError" 3 (pyBlock 4 .nil))) .nil))) .nil)

/-- A file whose single function wraps its subscript in
`try ... except KeyError`. -/
def treeKE : PyNode :=
  pyModule (.cons none (pyFuncDef "f" 0
    (pyBlock 1 (.cons none
      (pyTry 1 (pyBlock 2 (.cons none (pySubscript 2) .nil))
        (pyExceptTyped "KeyError" 3 (pyBlock 4 .nil))) .nil))) .nil)

/-- A file whose single function wraps its subscript in a bare
`try ... except`. -/
def treeBare : PyNode :=
  pyModule (.cons none (pyFuncDef "f" 0
    (pyBlock 1 (.cons none
      (pyTry 1 (pyBlock 2 (.cons none (pySubscript 2) .nil))
        (pyExceptBare 3 (pyBlock 4 .nil))) .nil))) .nil)

/-- Body of the inner function of the nested scenario. -/
def innerBody : PyNode := pyBlock 2 (.cons none (pySubscript 2) .nil)

/-- The nested inner function definition. -/
def innerDef : PyNode := pyFuncDef "inner" 1 innerBody

/-- Body of the outer function of the nested scenario. -/
def outerBody : PyNode := pyBlock 1 (.cons none innerDef .nil)

/-- The outer function definition enclosing `innerDef`. -/
def outerDef : PyNode := pyFuncDef "outer" 0 outerBody

/-- A file with an unguarded subscript inside `def inner` nested inside
`def outer`. -/
def treeNested : PyNode := pyModule (.cons none outerDef .nil)

/-- The ancestor chain of the subscript of `treeNested`, innermost first. -/
def nestedPath : List PyNode :=
  [innerBody, innerDef, outerBody, outerDef, treeNested]

/-- An empty module: a file with no functions and no accesses. -/
def treeEmpty : PyNode := pyModule .nil

mutual
/-- Every node of a subtree paired with its ancestor chain (the chain the
tree-sitter parent pointers realize). -/
def nodesWithAnc : PyNode → List PyNode → List (PyNode × List PyNode)
  | .mk k t r cs, anc =>
    (PyNode.mk k t r cs, anc) :: nodesWithAncChildren cs (.mk k t r cs :: anc)
/-- Children part of `nodesWithAnc`. -/
def nodesWithAncChildren : PyChildren → List PyNode → List (PyNode × List PyNode)
  | .nil, _ => []
  | .cons _ c rest, anc => nodesWithAnc c anc ++ nodesWithAncChildren rest anc
end

/-- The callee a warning blames, if it is a call-site warning. -/
def calleeOf : Warning → Option String
  | .possibleUnhandledCall _ _ _ callee _ => some callee
  | .possibleKeyError _ _ _ => none

/-- Spec wording (section 4.2): a handler clause matches when it declares no
exception type, or its declared type text is `KeyError` or `Exception`. -/
def specHandlerMatches (c : PyNode) : Prop :=
  c.kind = "except_clause" ∧
    (child_by_field_name c.children "type" = none ∨
      ∃ ty, child_by_field_name c.children "type" = some ty
        ∧ (ty.text = "KeyError" ∨ ty.text = "Exception"))

/-- Spec wording (section 4.2): a try construct guards the failure when one
of its immediate clauses matches. -/
def specGuardsTry (a : PyNode) : Prop :=
  a.kind = "try_statement" ∧ ∃ c ∈ a.children.toList, specHandlerMatches c

/-! Named concrete tables and report states for the scenario trees. -/

def tbl0FG : FnTable := (collect_functions treeFG [] []).getD []
def tblFG : FnTable := insertAL "<module>" ⟨treeFG, [], ∅, false⟩ tbl0FG
def tblFGfin : FnTable := (runPass ["G", "F", "<module>"] tblFG).1
def ceStateFG : ReportState :=
  analyze_functions_order "a.py" ["F", "G", "<module>"]
    { functions := tblFGfin, reported_calls := ∅, output := [] }
def feGfin : FunctionInfo :=
  (lookupAL tblFGfin "G").getD ⟨treeEmpty, [], ∅, false⟩

def tbl0ABC : FnTable := (collect_functions treeABC [] []).getD []
def tblABC : FnTable := insertAL "<module>" ⟨treeABC, [], ∅, false⟩ tbl0ABC
def tblABCfin : FnTable := (runPass ["C", "B", "A", "<module>"] tblABC).1

def tbl0VE : FnTable := (collect_functions treeVE [] []).getD []
def tblVE : FnTable := insertAL "<module>" ⟨treeVE, [], ∅, false⟩ tbl0VE
def tblVEfin : FnTable := (runPass ["f", "<module>"] tblVE).1
def stVE : ReportState :=
  analyze_functions_order "a.py" ["f", "<module>"]
    { functions := tblVEfin, reported_calls := ∅, output := [] }

def tbl0KE : FnTable := (collect_functions treeKE [] []).getD []
def tblKE : FnTable := insertAL "<module>" ⟨treeKE, [], ∅, false⟩ tbl0KE
def stKE : ReportState :=
  analyze_functions_order "a.py" ["f", "<module>"]
    { functions := tblKE, reported_calls := ∅, output := [] }

def tbl0Bare : FnTable := (collect_functions treeBare [] []).getD []
def tblBare : FnTable := insertAL "<module>" ⟨treeBare, [], ∅, false⟩ tbl0Bare
def stBare : ReportState :=
  analyze_functions_order "a.py" ["f", "<module>"]
    { functions := tblBare, reported_calls := ∅, output := [] }

def tbl0Nested : FnTable := (collect_functions treeNested [] []).getD []
def tblNested : FnTable := insertAL "<module>" ⟨treeNested, [], ∅, false⟩ tbl0Nested
def tblNestedFin : FnTable := (runPass ["outer", "inner", "<module>"] tblNested).1
def stNested : ReportState :=
  analyze_functions_order "a.py" ["outer", "inner", "<module>"]
    { functions := tblNestedFin, reported_calls := ∅, output := [] }
def feOuter : FunctionInfo :=
  (lookupAL tblNested "outer").getD ⟨treeEmpty, [], ∅, false⟩

def tblEmpty : FnTable := insertAL "<module>" ⟨treeEmpty, [], ∅, false⟩ []

/-! Oracles for the `main` loop scenarios: two files, one problematic. -/

def srcGood : String := "x = 1"
def srcBad : String := "def ("
def readOracle1 : String → Option String :=
  fun f => if f = "bad.py" then none else some srcGood
def readOracle2 : String → Option String :=
  fun f => if f = "ugly.py" then some srcBad else some srcGood
def parseOracle : String → Option PyNode :=
  fun s => if s = srcBad then none else some treeEmpty

/-! Shared lemma library. -/

theorem lookupAL_insertAL_self (t : FnTable) (k : String) (v : FunctionInfo) :
    lookupAL (insertAL k v t) k = some v := by
  induction t with
  | nil => simp [insertAL, lookupAL]
  | cons e rest ih =>
    obtain ⟨k0, v0⟩ := e
    by_cases hk : k0 = k
    · subst hk; simp [insertAL, lookupAL]
    · simp [insertAL, lookupAL, hk, ih]

theorem lookupAL_insertAL_other {k m : String} (h : k ≠ m) (t : FnTable)
    (v : FunctionInfo) : lookupAL (insertAL k v t) m = lookupAL t m := by
  induction t with
  | nil => simp [insertAL, lookupAL, h]
  | cons e rest ih =>
    obtain ⟨k0, v0⟩ := e
    by_cases hk : k0 = k
    · subst hk
      simp only [insertAL, if_pos rfl]
      simp [lookupAL, h]
    · simp only [insertAL, if_neg hk]
      by_cases hm : k0 = m
      · subst hm; simp [lookupAL]
      · simp [lookupAL, hm, ih]

mutual
/-- `find_unguarded_dict_accesses` collects exactly the subtree positions
that are subscripts failing the guard check. -/
theorem find_unguarded_eq_filter :
    ∀ (n : PyNode) (anc : List PyNode),
      find_unguarded_dict_accesses n anc =
        (nodesWithAnc n anc).filter
          (fun a => a.1.kind == "subscript"
            && !(is_within_keyerror_try_except a.1 a.2))
  | .mk k t r cs, anc => by
    simp only [find_unguarded_dict_accesses, nodesWithAnc, List.filter_cons]
    rw [findAccessesChildren_eq_filter cs (PyNode.mk k t r cs :: anc)]
    by_cases hc : ((PyNode.mk k t r cs).kind == "subscript"
        && !(is_within_keyerror_try_except (PyNode.mk k t r cs) anc)) = true
    · rw [if_pos hc]
      simp [hc]
    · rw [if_neg hc]
      simp [hc]
/-- Children part of `find_unguarded_eq_filter`. -/
theorem findAccessesChildren_eq_filter :
    ∀ (cs : PyChildren) (anc : List PyNode),
      findAccessesChildren cs anc =
        (nodesWithAncChildren cs anc).filter
          (fun a => a.1.kind == "subscript"
            && !(is_within_keyerror_try_except a.1 a.2))
  | .nil, _ => rfl
  | .cons f c rest, anc => by
    simp only [findAccessesChildren, nodesWithAncChildren, List.filter_append]
    rw [find_unguarded_eq_filter c anc, findAccessesChildren_eq_filter rest anc]
end

theorem mem_find_unguarded_iff (n : PyNode) (anc : List PyNode) (s : PyNode)
    (p : List PyNode) :
    (s, p) ∈ find_unguarded_dict_accesses n anc ↔
      ((s, p) ∈ nodesWithAnc n anc ∧ s.kind = "subscript"
        ∧ is_within_keyerror_try_except s p = false) := by
  rw [find_unguarded_eq_filter, List.mem_filter]
  simp [Bool.and_eq_true, Bool.not_eq_true', and_assoc]

/-- Every collected access fails the guard check, with the ancestor chain it
was collected under. -/
theorem find_unguarded_guard_false {n : PyNode} {anc : List PyNode}
    {a : PyNode × List PyNode} (h : a ∈ find_unguarded_dict_accesses n anc) :
    is_within_keyerror_try_except a.1 a.2 = false := by
  obtain ⟨s, p⟩ := a
  exact ((mem_find_unguarded_iff n anc s p).1 h).2.2

theorem localFold_grows (l : List (PyNode × List PyNode))
    (acc : Finset String) :
    acc ⊆ l.foldl
      (fun acc a =>
        if !(is_within_keyerror_try_except a.1 a.2) then insert "KeyError" acc
        else acc) acc := by
  induction l generalizing acc with
  | nil => exact Finset.Subset.refl _
  | cons a rest ih =>
    simp only [List.foldl]
    refine Finset.Subset.trans ?_ (ih _)
    by_cases hc : !(is_within_keyerror_try_except a.1 a.2)
    · rw [if_pos hc]; exact Finset.subset_insert _ _
    · rw [if_neg hc]

theorem callFold_grows (t : FnTable) (l : List FunctionCall)
    (acc : Finset String) :
    acc ⊆ l.foldl
      (fun acc call =>
        match lookupAL t call.name with
        | some called =>
            if called.mayRaise ≠ ∅
                ∧ !(is_within_keyerror_try_except call.node call.anc) then
              acc ∪ called.mayRaise
            else acc
        | none => acc) acc := by
  induction l generalizing acc with
  | nil => exact Finset.Subset.refl _
  | cons call rest ih =>
    simp only [List.foldl]
    refine Finset.Subset.trans ?_ (ih _)
    cases hlk : lookupAL t call.name with
    | none => simp only [hlk]; exact Finset.Subset.refl _
    | some called =>
      simp only [hlk]
      by_cases hc : called.mayRaise ≠ ∅
          ∧ !(is_within_keyerror_try_except call.node call.anc)
      · rw [if_pos hc]; exact Finset.subset_union_left
      · rw [if_neg hc]

/-- A non-empty collected access list makes the local loop insert the
`KeyError` label. -/
theorem new_exceptions_local_mem (t : FnTable) (fe : FunctionInfo)
    (h : find_unguarded_dict_accesses fe.node fe.anc ≠ []) :
    "KeyError" ∈ new_exceptions t fe := by
  simp only [new_exceptions]
  refine callFold_grows t _ _ ?_
  rcases hL : find_unguarded_dict_accesses fe.node fe.anc with _ | ⟨a, rest⟩
  · exact absurd hL h
  · have hg : is_within_keyerror_try_except a.1 a.2 = false :=
      find_unguarded_guard_false (hL ▸ List.mem_cons_self a rest)
    simp only [List.foldl, hg, Bool.not_false, if_pos]
    exact localFold_grows rest _ (Finset.mem_insert_self _ _)

theorem exceptClauseMatches_iff (c : PyNode) :
    exceptClauseMatches c = true ↔ specHandlerMatches c := by
  simp only [exceptClauseMatches, specHandlerMatches, Bool.and_eq_true,
    beq_iff_eq]
  cases hty : child_by_field_name c.children "type" with
  | none => simp
  | some ty => simp [Bool.or_eq_true, beq_iff_eq]

theorem anyClauseMatches_iff : ∀ (cs : PyChildren),
    anyClauseMatches cs = true ↔ ∃ c ∈ cs.toList, specHandlerMatches c
  | .nil => by simp [anyClauseMatches, PyChildren.toList]
  | .cons f c rest => by
    simp [anyClauseMatches, PyChildren.toList, Bool.or_eq_true,
      exceptClauseMatches_iff, anyClauseMatches_iff rest]

theorem nodeGuards_iff (n : PyNode) : nodeGuards n = true ↔ specGuardsTry n := by
  simp [nodeGuards, specGuardsTry, Bool.and_eq_true, beq_iff_eq,
    anyClauseMatches_iff]

theorem is_within_iff (node : PyNode) (ancestors : List PyNode) :
    is_within_keyerror_try_except node ancestors = true ↔
      ∃ a ∈ node :: ancestors, specGuardsTry a := by
  simp [is_within_keyerror_try_except, List.any_eq_true, nodeGuards_iff]

/-- Evaluation helper: `analyze_file` under known collection and
propagation results. -/
theorem analyze_file_eval (filename : String) (tree : PyNode)
    (passOrder reportOrder : List String) (t0 t2 : FnTable)
    (h0 : collect_functions tree [] [] = some t0)
    (h2 : determine_exceptions passOrder
      (insertAL "<module>" ⟨tree, [], ∅, false⟩ t0) = t2) :
    analyze_file filename tree passOrder reportOrder =
      some (analyze_functions_order filename reportOrder
        { functions := t2, reported_calls := ∅, output := [] }) := by
  simp [analyze_file, h0, h2]

theorem passIter_succ (order : List String) :
    ∀ (n : Nat) (t : FnTable),
      passIter order (n + 1) t = (runPass order (passIter order n t)).1
  | 0, _ => rfl
  | n + 1, t => by
    simp only [passIter]
    exact passIter_succ order n (runPass order t).1

/-- The `try ... except KeyError` node of `treeKE`. -/
def tryNodeKE : PyNode :=
  pyTry 1 (pyBlock 2 (.cons none (pySubscript 2) .nil))
    (pyExceptTyped "KeyError" 3 (pyBlock 4 .nil))

/-- C2: the guard check `is_within_keyerror_try_except` returns true exactly
when some node of the ancestor walk (the node itself followed by its
ancestors) is a try statement with an immediate handler clause that is bare
or declares `KeyError` or `Exception`; for a node that is not itself a try
statement this is exactly a condition on its proper ancestors.  In
particular the analysis of a file whose only handler declares `ValueError`
reports the access, while the same file with a bare handler or a `KeyError`
handler reports nothing. -/
theorem C2_guard_check_semantics :
    (∀ (node : PyNode) (ancestors : List PyNode),
      is_within_keyerror_try_except node ancestors = true ↔
        ∃ a ∈ node :: ancestors, specGuardsTry a)
    ∧ (∀ (node : PyNode) (ancestors : List PyNode),
        node.kind ≠ "try_statement" →
        (is_within_keyerror_try_except node ancestors = true ↔
          ∃ a ∈ ancestors, specGuardsTry a))
    ∧ analyze_file "a.py" treeVE ["f", "<module>"] ["f", "<module>"] = some stVE
    ∧ Warning.possibleKeyError "a.py" 3 "f" ∈ stVE.output
    ∧ analyze_file "a.py" treeKE ["f", "<module>"] ["f", "<module>"] = some stKE
    ∧ stKE.output = []
    ∧ analyze_file "a.py" treeBare ["f", "<module>"] ["f", "<module>"]
        = some stBare
    ∧ stBare.output = [] := by
  refine ⟨is_within_iff, ?_, ?_, by decide, ?_, by decide, ?_, by decide⟩
  · intro node anc hk
    rw [is_within_iff]
    constructor
    · rintro ⟨a, ha, hg⟩
      rcases List.mem_cons.1 ha with heq | hmem
      · subst heq
        exact absurd hg.1 hk
      · exact ⟨a, hmem, hg⟩
    · rintro ⟨a, ha, hg⟩
      exact ⟨a, List.mem_cons_of_mem _ ha, hg⟩
  · have h2 : determine_exceptions ["f", "<module>"] tblVE = tblVEfin := by
      rw [determine_exceptions_go (by decide)]
      exact determine_exceptions_stop (by decide)
    exact (analyze_file_eval "a.py" treeVE ["f", "<module>"] ["f", "<module>"]
      tbl0VE tblVEfin (by decide) h2).trans rfl
  · have h2 : determine_exceptions ["f", "<module>"] tblKE = tblKE :=
      determine_exceptions_stop (by decide)
    exact (analyze_file_eval "a.py" treeKE ["f", "<module>"] ["f", "<module>"]
      tbl0KE tblKE (by decide) h2).trans rfl
  · have h2 : determine_exceptions ["f", "<module>"] tblBare = tblBare :=
      determine_exceptions_stop (by decide)
    exact (analyze_file_eval "a.py" treeBare ["f", "<module>"] ["f", "<module>"]
      tbl0Bare tblBare (by decide) h2).trans rfl

/-- Witness for C2: the second component applied to a concrete subscript
under a `KeyError` try chain. -/
theorem C2_guard_check_semantics_witness :
    is_within_keyerror_try_except (pySubscript 2)
      [pyBlock 2 (.cons none (pySubscript 2) .nil), tryNodeKE] = true := by
  have h := C2_guard_check_semantics.2.1 (pySubscript 2)
    [pyBlock 2 (.cons none (pySubscript 2) .nil), tryNodeKE] (by decide)
  refine h.mpr ⟨tryNodeKE, by decide, rfl, ?_⟩
  exact ⟨pyExceptTyped "KeyError" 3 (pyBlock 4 .nil), by decide, rfl,
    Or.inr ⟨pyIdent "KeyError" 3, rfl, Or.inl rfl⟩⟩

/-- C3: `may_raise` grows monotonically: one pass only adds labels, each
iterated pass only adds labels, and the whole fixed-point computation only
adds labels; no label is ever removed. -/
theorem C3_may_raise_monotone (order : List String) (t : FnTable)
    (name : String) :
    mayRaiseOf t name ⊆ mayRaiseOf (runPass order t).1 name
    ∧ (∀ n : Nat, mayRaiseOf (passIter order n t) name
        ⊆ mayRaiseOf (passIter order (n + 1) t) name)
    ∧ mayRaiseOf t name ⊆ mayRaiseOf (determine_exceptions order t) name := by
  refine ⟨mayRaiseOf_mono (runPassAux_grow order t false) name, ?_,
    mayRaiseOf_mono (determine_exceptions_grow order t) name⟩
  intro n
  rw [passIter_succ]
  exact mayRaiseOf_mono (runPassAux_grow order _ false) name

/-- C4: the fixed-point loop of `determine_exceptions` terminates on every
input: some pass makes no progress, and the loop result is that pass
iterate. -/
theorem C4_fixed_point_terminates (order : List String) (t : FnTable) :
    ∃ n, (runPass order (passIter order n t)).2 = false
      ∧ determine_exceptions order t = passIter order n t := by
  obtain ⟨n, h1, h2⟩ := determine_exceptions_exists_iter order t
  exact ⟨n, h2, h1⟩

/-- C6: rerunning the propagator on a table that already reached its fixed
point changes nothing. -/
theorem C6_propagation_idempotent (order : List String) (t : FnTable) :
    determine_exceptions order (determine_exceptions order t)
      = determine_exceptions order t :=
  determine_exceptions_stop (determine_exceptions_stable order t)

/-- C7: labels propagate transitively: with `C` holding an unguarded
access, `B` calling `C` and `A` calling `B`, after convergence both `B` and
`A` carry the `KeyError` label. -/
theorem C7_transitive_propagation :
    "KeyError" ∈ mayRaiseOf
      (determine_exceptions ["C", "B", "A", "<module>"] tblABC) "B"
    ∧ "KeyError" ∈ mayRaiseOf
      (determine_exceptions ["C", "B", "A", "<module>"] tblABC) "A" := by
  have h2 : determine_exceptions ["C", "B", "A", "<module>"] tblABC
      = tblABCfin := by
    rw [determine_exceptions_go (by decide)]
    exact determine_exceptions_stop (by decide)
  rw [h2]
  exact ⟨by decide, by decide⟩

theorem runMain_read_error {readF : String → Option String}
    {parseF : String → Option PyNode} {f : String} {fs : List String}
    (h : readF f = none) :
    runMain readF parseF (f :: fs) =
      (RunEvent.readErrorLine f :: (runMain readF parseF fs).1,
        (runMain readF parseF fs).2) := by
  simp [runMain, h]

theorem runMain_parse_error {readF : String → Option String}
    {parseF : String → Option PyNode} {f src : String} {fs : List String}
    (h1 : readF f = some src) (h2 : parseF src = none) :
    runMain readF parseF (f :: fs) = ([], true) := by
  simp [runMain, h1, h2]

theorem runMain_ok {readF : String → Option String}
    {parseF : String → Option PyNode} {f src : String} {tree : PyNode}
    {st : ReportState} {fs : List String}
    (h1 : readF f = some src) (h2 : parseF src = some tree)
    (h3 : analyze_file_keys f tree = some st) :
    runMain readF parseF (f :: fs) =
      (RunEvent.fileOutput f st.output :: (runMain readF parseF fs).1,
        (runMain readF parseF fs).2) := by
  simp [runMain, h1, h2, h3]

/-- C8: per-file error isolation.  The read-failure half holds: an
unreadable file produces an error event naming it and the remaining files
are still analyzed.  The parse-failure half is violated by the code: a file
whose parse yields no tree hits `parser.parse(source_code, None).unwrap()`
(src/main.rs line 42), panicking and killing the whole run, so the
remaining files are never processed — the abort flag is set and no event is
produced for any file. -/
theorem C8_parse_failure_aborts_run :
    runMain readOracle1 parseOracle ["bad.py", "good.py"]
      = ([RunEvent.readErrorLine "bad.py", RunEvent.fileOutput "good.py" []],
          false)
    ∧ runMain readOracle2 parseOracle ["ugly.py", "good.py"] = ([], true) := by
  have hgood : analyze_file_keys "good.py" treeEmpty
      = some (ReportState.mk tblEmpty ∅ []) := by
    have hkeys : analyze_file_keys "good.py" treeEmpty
        = analyze_file "good.py" treeEmpty ["<module>"] ["<module>"] := rfl
    rw [hkeys, analyze_file_eval "good.py" treeEmpty ["<module>"] ["<module>"]
      ([] : FnTable) tblEmpty (by decide)
      (determine_exceptions_stop (by decide))]
    decide
  constructor
  · rw [runMain_read_error (by decide),
      runMain_ok (by decide : readOracle1 "good.py" = some srcGood)
        (by decide : parseOracle srcGood = some treeEmpty) hgood]
    decide
  · exact runMain_parse_error
      (by decide : readOracle2 "ugly.py" = some srcBad) (by decide)

theorem lookupAL_setReported_self {t : FnTable} {n : String}
    {fe : FunctionInfo} (h : lookupAL t n = some fe) :
    lookupAL (setReported t n) n = some { fe with reported := true } := by
  simp [setReported, h, lookupAL_insertAL_self]

theorem lookupAL_setReported_other {t : FnTable} {n m : String} (h : n ≠ m) :
    lookupAL (setReported t n) m = lookupAL t m := by
  simp only [setReported]
  cases hlk : lookupAL t n with
  | none => rfl
  | some fe => exact lookupAL_insertAL_other h t _

theorem reportedOf_setReported_self {t : FnTable} {n : String}
    {fe : FunctionInfo} (h : lookupAL t n = some fe) :
    reportedOf (setReported t n) n = true := by
  simp [reportedOf, lookupAL_setReported_self h]

theorem reportedOf_setReported_mono {t : FnTable} {n m : String}
    (h : reportedOf t m = true) : reportedOf (setReported t n) m = true := by
  by_cases hnm : n = m
  · subst hnm
    cases hlk : lookupAL t n with
    | none => simp [reportedOf, hlk] at h
    | some fe => exact reportedOf_setReported_self hlk
  · simp only [reportedOf, lookupAL_setReported_other hnm]
    exact h

/-- Unfolding of `analyze_function`: either the name is unknown (dead
branch) or the table and output are the two passes of src/main.rs lines
209-263. -/
theorem analyze_function_cases (f n : String) (st : ReportState) :
    (lookupAL st.functions n = none ∧ analyze_function f n st = st)
    ∨ ∃ fe, lookupAL st.functions n = some fe
      ∧ (analyze_function f n st).functions =
          (if (find_unguarded_dict_accesses fe.node fe.anc).isEmpty
            then st.functions else setReported st.functions n)
      ∧ (analyze_function f n st).output =
          st.output
            ++ localWarnings f n (find_unguarded_dict_accesses fe.node fe.anc)
            ++ ((collect_function_calls fe.node fe.anc).foldl
                  (callStep f n
                    (if (find_unguarded_dict_accesses fe.node fe.anc).isEmpty
                      then st.functions else setReported st.functions n))
                  (st.reported_calls, [])).2 := by
  cases hlk : lookupAL st.functions n with
  | none => exact Or.inl ⟨rfl, by simp [analyze_function, hlk]⟩
  | some fe =>
    refine Or.inr ⟨fe, rfl, ?_, ?_⟩ <;> simp [analyze_function, hlk]

theorem analyze_function_flag_mono {f n g : String} {st : ReportState}
    (h : reportedOf st.functions g = true) :
    reportedOf (analyze_function f n st).functions g = true := by
  rcases analyze_function_cases f n st with ⟨_, heq⟩ | ⟨fe, _hlk, hfns, _⟩
  · rw [heq]; exact h
  · rw [hfns]
    by_cases hemp : (find_unguarded_dict_accesses fe.node fe.anc).isEmpty
    · rw [if_pos hemp]; exact h
    · rw [if_neg hemp]; exact reportedOf_setReported_mono h

theorem analyze_function_lookup_fwd {f n m : String} {st : ReportState}
    {fe : FunctionInfo} (h : lookupAL st.functions m = some fe) :
    ∃ fe2, lookupAL (analyze_function f n st).functions m = some fe2
      ∧ fe2.node = fe.node ∧ fe2.anc = fe.anc := by
  rcases analyze_function_cases f n st with ⟨_, heq⟩ | ⟨fe0, hlk0, hfns, _⟩
  · rw [heq]; exact ⟨fe, h, rfl, rfl⟩
  · rw [hfns]
    by_cases hemp : (find_unguarded_dict_accesses fe0.node fe0.anc).isEmpty
    · rw [if_pos hemp]; exact ⟨fe, h, rfl, rfl⟩
    · rw [if_neg hemp]
      by_cases hnm : n = m
      · subst hnm
        rw [hlk0] at h
        injection h with hfe
        subst hfe
        exact ⟨_, lookupAL_setReported_self hlk0, rfl, rfl⟩
      · rw [lookupAL_setReported_other hnm]
        exact ⟨fe, h, rfl, rfl⟩

theorem analyze_function_sets_flag {f g : String} {st : ReportState}
    {fe : FunctionInfo} (hlk : lookupAL st.functions g = some fe)
    (hne : find_unguarded_dict_accesses fe.node fe.anc ≠ []) :
    reportedOf (analyze_function f g st).functions g = true := by
  rcases analyze_function_cases f g st with ⟨hnone, _⟩ | ⟨fe0, hlk0, hfns, _⟩
  · rw [hnone] at hlk; cases hlk
  · rw [hlk0] at hlk
    injection hlk with hfe
    subst hfe
    rw [hfns, if_neg (fun hcon => hne (List.isEmpty_iff.1 hcon))]
    exact reportedOf_setReported_self hlk0

theorem localWarningsFold_shape {f n : String} :
    ∀ (l : List (PyNode × List PyNode)) (acc : List Warning) (w : Warning),
      w ∈ l.foldl (fun ws a =>
        if !(is_within_keyerror_try_except a.1 a.2) then
          if n ≠ "<module>" then
            ws ++ [Warning.possibleKeyError f (a.1.row + 1) n]
          else ws
        else ws) acc →
      w ∈ acc ∨ ∃ line, w = Warning.possibleKeyError f line n := by
  intro l
  induction l with
  | nil => intro acc w h; exact Or.inl h
  | cons a rest ih =>
    intro acc w h
    simp only [List.foldl] at h
    rcases ih _ w h with h2 | h2
    · by_cases hc1 : !(is_within_keyerror_try_except a.1 a.2)
      · rw [if_pos hc1] at h2
        by_cases hc2 : n ≠ "<module>"
        · rw [if_pos hc2] at h2
          rcases List.mem_append.1 h2 with h3 | h3
          · exact Or.inl h3
          · exact Or.inr ⟨a.1.row + 1, List.mem_singleton.1 h3⟩
        · rw [if_neg hc2] at h2; exact Or.inl h2
      · rw [if_neg hc1] at h2; exact Or.inl h2
    · exact Or.inr h2

theorem localWarnings_shape {f n : String} {l : List (PyNode × List PyNode)}
    {w : Warning} (h : w ∈ localWarnings f n l) :
    ∃ line, w = Warning.possibleKeyError f line n := by
  simp only [localWarnings] at h
  split at h
  · cases h
  · rcases localWarningsFold_shape l [] w h with h2 | h2
    · cases h2
    · exact h2

/-- When the callee already carries the `reported_in_function` flag in the
table the call loop reads, no call-site warning blaming it is appended. -/
theorem callFold_no_callee {f caller : String} {t1 : FnTable} {g : String}
    (hrep : reportedOf t1 g = true) :
    ∀ (calls : List FunctionCall) (acc : Finset (Nat × String) × List Warning),
      (∀ w ∈ acc.2, calleeOf w ≠ some g) →
      ∀ w ∈ (calls.foldl (callStep f caller t1) acc).2, calleeOf w ≠ some g := by
  intro calls
  induction calls with
  | nil => intro acc hacc w hw; exact hacc w hw
  | cons call rest ih =>
    intro acc hacc w hw
    simp only [List.foldl] at hw
    refine ih _ ?_ w hw
    intro w2 hw2
    simp only [callStep] at hw2
    rcases hlk : lookupAL t1 call.name with _ | called
    · simp only [hlk] at hw2; exact hacc w2 hw2
    · simp only [hlk] at hw2
      by_cases hc1 : called.mayRaise ≠ ∅
          ∧ !(is_within_keyerror_try_except call.node call.anc)
      · rw [if_pos hc1] at hw2
        by_cases hc2 : (call.node.row + 1, call.name) ∉ acc.1
            ∧ called.reported = false
        · rw [if_pos hc2] at hw2
          rcases List.mem_append.1 hw2 with h3 | h3
          · exact hacc w2 h3
          · rw [List.mem_singleton.1 h3]
            simp only [calleeOf, ne_eq, Option.some.injEq]
            intro hcn
            rw [hcn] at hlk
            simp only [reportedOf, hlk] at hrep
            rw [hc2.2] at hrep
            cases hrep
        · rw [if_neg hc2] at hw2; exact hacc w2 hw2
      · rw [if_neg hc1] at hw2; exact hacc w2 hw2

theorem analyze_function_no_new_callee {f n g : String} {st : ReportState}
    (hflag : reportedOf (analyze_function f n st).functions g = true) :
    ∀ w ∈ (analyze_function f n st).output,
      w ∈ st.output ∨ calleeOf w ≠ some g := by
  rcases analyze_function_cases f n st with ⟨_, heq⟩ | ⟨fe, _hlk, hfns, hout⟩
  · rw [heq]; exact fun w hw => Or.inl hw
  · intro w hw
    rw [hout] at hw
    rcases List.mem_append.1 hw with hw1 | hw2
    · rcases List.mem_append.1 hw1 with hw0 | hwl
      · exact Or.inl hw0
      · right
        obtain ⟨line, rfl⟩ := localWarnings_shape hwl
        simp [calleeOf]
    · right
      rw [hfns] at hflag
      exact callFold_no_callee hflag _ _
        (fun w2 hw2 => absurd hw2 (List.not_mem_nil w2)) w hw2

theorem reportRun_flag_mono (f : String) :
    ∀ (o : List String) (st : ReportState) (g : String),
      reportedOf st.functions g = true →
      reportedOf (analyze_functions_order f o st).functions g = true := by
  intro o
  induction o with
  | nil => intro st g h; exact h
  | cons n rest ih =>
    intro st g h
    exact ih (analyze_function f n st) g (analyze_function_flag_mono h)

theorem reportRun_no_callee (f : String) :
    ∀ (o : List String) (st : ReportState) (g : String),
      reportedOf st.functions g = true →
      ∀ w ∈ (analyze_functions_order f o st).output,
        w ∈ st.output ∨ calleeOf w ≠ some g := by
  intro o
  induction o with
  | nil => intro st g _ w hw; exact Or.inl hw
  | cons n rest ih =>
    intro st g h w hw
    have hflag1 : reportedOf (analyze_function f n st).functions g = true :=
      analyze_function_flag_mono h
    rcases ih (analyze_function f n st) g hflag1 w hw with h2 | h2
    · exact analyze_function_no_new_callee hflag1 w h2
    · exact Or.inr h2

/-- C1 as stated is false on the code: with `def G` holding an unguarded
access and `def F` calling `G`, analyzing `F` before `G` (a key order the
`HashMap` may well produce) emits the call-site warning against `G` even
though `G` ends the run with `reported_in_function` set. -/
theorem C1_counterexample_order_dependent :
    analyze_file "a.py" treeFG ["G", "F", "<module>"] ["F", "G", "<module>"]
      = some ceStateFG
    ∧ reportedOf ceStateFG.functions "G" = true
    ∧ Warning.possibleUnhandledCall "a.py" 4 {"KeyError"} "G" "F"
        ∈ ceStateFG.output := by
  have h2 : determine_exceptions ["G", "F", "<module>"] tblFG = tblFGfin := by
    rw [determine_exceptions_go (by decide)]
    exact determine_exceptions_stop (by decide)
  exact ⟨(analyze_file_eval "a.py" treeFG ["G", "F", "<module>"]
      ["F", "G", "<module>"] tbl0FG tblFGfin (by decide) h2).trans rfl,
    by decide, by decide⟩

/-- C1 amended: once the reporting loop has analyzed a function `G` that
holds at least one collected unguarded access (so its
`reported_in_function` flag is set), no later-analyzed caller — nor `G`
itself — is emitted a call-site warning for calling `G`, regardless of
guard state at the call site.  Equivalently, the claimed suppression holds
exactly for callers analyzed after `G`. -/
theorem C1_suppression_after_callee_analyzed (file : String)
    (st : ReportState) (g : String) (o2 : List String) (fe : FunctionInfo)
    (hlk : lookupAL st.functions g = some fe)
    (hacc : find_unguarded_dict_accesses fe.node fe.anc ≠ []) :
    ∀ w ∈ (analyze_functions_order file (g :: o2) st).output,
      w ∈ st.output ∨ calleeOf w ≠ some g := by
  intro w hw
  have hflag1 : reportedOf (analyze_function file g st).functions g = true :=
    analyze_function_sets_flag hlk hacc
  rcases reportRun_no_callee file o2 (analyze_function file g st) g hflag1
      w hw with h2 | h2
  · exact analyze_function_no_new_callee hflag1 w h2
  · exact Or.inr h2

/-- Witness for the amended C1: with `G` analyzed first on the same file,
the call-site warning against `G` is absent from the whole output. -/
theorem C1_suppression_witness :
    Warning.possibleUnhandledCall "a.py" 4 {"KeyError"} "G" "F"
      ∉ (analyze_functions_order "a.py" ["G", "F", "<module>"]
          (ReportState.mk tblFGfin ∅ [])).output := by
  intro hmem
  rcases C1_suppression_after_callee_analyzed "a.py"
      (ReportState.mk tblFGfin ∅ []) "G" ["F", "<module>"] feGfin
      (by decide) (by decide) _ hmem with h | h
  · exact absurd h (List.not_mem_nil _)
  · exact h rfl

theorem passIter_below {U : Finset String} (hKE : "KeyError" ∈ U)
    (order : List String) :
    ∀ (n : Nat) (t : FnTable), entriesBelow t U →
      entriesBelow (passIter order n t) U := by
  intro n
  induction n with
  | zero => intro t h; exact h
  | succ n ih =>
    intro t h
    exact ih _ (runPassAux_below hKE order t false h)

theorem determine_exceptions_below {U : Finset String} (hKE : "KeyError" ∈ U)
    {order : List String} {t : FnTable} (h : entriesBelow t U) :
    entriesBelow (determine_exceptions order t) U := by
  obtain ⟨n, heq, _⟩ := determine_exceptions_exists_iter order t
  rw [heq]
  exact passIter_below hKE order n t h

theorem mayRaiseOf_below {t : FnTable} {U : Finset String} {name : String}
    (h : entriesBelow t U) : mayRaiseOf t name ⊆ U := by
  simp only [mayRaiseOf]
  cases hlk : lookupAL t name with
  | none => exact Finset.empty_subset U
  | some fe => exact h _ (lookupAL_mem hlk)

/-- C10: starting from sets bounded by the singleton universe (the analysis
starts from empty sets), every `may_raise` set the propagator ever
produces — after each pass and at the fixed point — is either empty or
exactly the singleton `KeyError`: the local contribution only inserts
`KeyError` and the inherited contribution only copies existing labels. -/
theorem C10_label_universe (order : List String) (t : FnTable)
    (hinit : entriesBelow t {"KeyError"}) :
    (∀ name, mayRaiseOf (determine_exceptions order t) name = ∅
      ∨ mayRaiseOf (determine_exceptions order t) name = {"KeyError"})
    ∧ ∀ (n : Nat) (name : String),
        mayRaiseOf (passIter order n t) name = ∅
        ∨ mayRaiseOf (passIter order n t) name = {"KeyError"} := by
  have hKE : "KeyError" ∈ ({"KeyError"} : Finset String) :=
    Finset.mem_singleton_self _
  constructor
  · intro name
    exact Finset.subset_singleton_iff.1
      (mayRaiseOf_below (determine_exceptions_below hKE hinit))
  · intro n name
    exact Finset.subset_singleton_iff.1
      (mayRaiseOf_below (passIter_below hKE order n t hinit))

/-- Witness for C10 on the three-function scenario table. -/
theorem C10_label_universe_witness :
    mayRaiseOf (determine_exceptions ["C", "B", "A", "<module>"] tblABC) "A" = ∅
    ∨ mayRaiseOf (determine_exceptions ["C", "B", "A", "<module>"] tblABC) "A"
        = {"KeyError"} :=
  (C10_label_universe ["C", "B", "A", "<module>"] tblABC
    (by unfold entriesBelow; decide)).1 "A"

/-- Two tables agree on which names are known and on the static data
(body node and ancestors) of every known name. -/
def StaticAgree (t s : FnTable) : Prop :=
  ∀ name, (lookupAL t name = none ∧ lookupAL s name = none)
    ∨ ∃ a b, lookupAL t name = some a ∧ lookupAL s name = some b
        ∧ a.node = b.node ∧ a.anc = b.anc

/-- Pointwise inclusion of the `may_raise` sets. -/
def MRle (t s : FnTable) : Prop :=
  ∀ name, mayRaiseOf t name ⊆ mayRaiseOf s name

theorem StaticAgree_of_TGrow {t s : FnTable} (h : TGrow t s) :
    StaticAgree t s := by
  intro name
  rcases TGrow_lookup h name with ⟨h1, h2⟩ | ⟨a, b, h1, h2, hnode, hanc, _, _⟩
  · exact Or.inl ⟨h1, h2⟩
  · exact Or.inr ⟨a, b, h1, h2, hnode.symm, hanc.symm⟩

theorem mayRaiseOf_eq_of_lookup {t : FnTable} {name : String}
    {fe : FunctionInfo} (h : lookupAL t name = some fe) :
    mayRaiseOf t name = fe.mayRaise := by
  simp [mayRaiseOf, h]

/-- The inherited-contribution fold is monotone in the table state. -/
theorem callFold_mono {t s : FnTable} (hst : StaticAgree t s) (hmr : MRle t s) :
    ∀ (l : List FunctionCall) (acc acc2 : Finset String), acc ⊆ acc2 →
      l.foldl
        (fun acc call =>
          match lookupAL t call.name with
          | some called =>
              if called.mayRaise ≠ ∅
                  ∧ !(is_within_keyerror_try_except call.node call.anc) then
                acc ∪ called.mayRaise
              else acc
          | none => acc) acc
      ⊆ l.foldl
          (fun acc call =>
            match lookupAL s call.name with
            | some called =>
                if called.mayRaise ≠ ∅
                    ∧ !(is_within_keyerror_try_except call.node call.anc) then
                  acc ∪ called.mayRaise
                else acc
            | none => acc) acc2 := by
  intro l
  induction l with
  | nil => intro acc acc2 h; exact h
  | cons call rest ih =>
    intro acc acc2 h
    simp only [List.foldl]
    refine ih _ _ ?_
    rcases hst call.name with ⟨h1, h2⟩ | ⟨a, b, h1, h2, hnode, hanc⟩
    · simp only [h1, h2]; exact h
    · simp only [h1, h2]
      have hab : a.mayRaise ⊆ b.mayRaise := by
        have hx := hmr call.name
        rwa [mayRaiseOf_eq_of_lookup h1, mayRaiseOf_eq_of_lookup h2] at hx
      by_cases hc : a.mayRaise ≠ ∅
          ∧ !(is_within_keyerror_try_except call.node call.anc)
      · rw [if_pos hc]
        have hbne : b.mayRaise ≠ ∅ := by
          intro hcon
          exact hc.1 (Finset.subset_empty.1 (hcon ▸ hab))
        rw [if_pos ⟨hbne, hc.2⟩]
        exact Finset.union_subset_union h hab
      · rw [if_neg hc]
        by_cases hc2 : b.mayRaise ≠ ∅
            ∧ !(is_within_keyerror_try_except call.node call.anc)
        · rw [if_pos hc2]
          exact h.trans Finset.subset_union_left
        · rw [if_neg hc2]; exact h

/-- `new_exceptions` is monotone: a bigger table state yields a bigger
contribution for entries with the same static data. -/
theorem new_exceptions_mono {t s : FnTable} (hst : StaticAgree t s)
    (hmr : MRle t s) {ft fs : FunctionInfo} (hnode : ft.node = fs.node)
    (hanc : ft.anc = fs.anc) :
    new_exceptions t ft ⊆ new_exceptions s fs := by
  simp only [new_exceptions, hnode, hanc]
  exact callFold_mono hst hmr _ _ _ (Finset.Subset.refl _)

/-- A pass run below a closed reference table stays below it. -/
theorem runPassAux_under {R : FnTable} :
    ∀ (order : List String),
      (∀ name ∈ order, ∀ fe, lookupAL R name = some fe →
        new_exceptions R fe ⊆ fe.mayRaise) →
      ∀ (t : FnTable) (ch : Bool), StaticAgree t R → MRle t R →
        StaticAgree (runPassAux order t ch).1 R
          ∧ MRle (runPassAux order t ch).1 R := by
  intro order
  induction order with
  | nil => intro _ t ch h1 h2; exact ⟨h1, h2⟩
  | cons name rest ih =>
    intro hclo t ch h1 h2
    simp only [runPassAux]
    rcases passStep_cases t ch name with heq | ⟨fe, hlk, _hsub, heq⟩
    · rw [heq]
      exact ih (fun nm hm => hclo nm (List.mem_cons_of_mem _ hm)) t ch h1 h2
    · rw [heq]
      refine ih (fun nm hm => hclo nm (List.mem_cons_of_mem _ hm)) _ _ ?_ ?_
      · intro nm
        by_cases hnm : name = nm
        · subst hnm
          rcases h1 name with ⟨ha, _⟩ | ⟨a, b, ha, hb, hnode, hanc⟩
          · rw [ha] at hlk; cases hlk
          · rw [ha] at hlk
            injection hlk with hfe
            subst hfe
            exact Or.inr ⟨_, b, lookupAL_insertAL_self t name _, hb, hnode, hanc⟩
        · rcases h1 nm with ⟨ha, hbn⟩ | ⟨a, b, ha, hb, hnode, hanc⟩
          · exact Or.inl ⟨by rw [lookupAL_insertAL_other hnm]; exact ha, hbn⟩
          · exact Or.inr ⟨a, b, by rw [lookupAL_insertAL_other hnm]; exact ha,
              hb, hnode, hanc⟩
      · intro nm
        by_cases hnm : name = nm
        · subst hnm
          rw [mayRaiseOf_eq_of_lookup (lookupAL_insertAL_self t name _)]
          rcases h1 name with ⟨ha, _⟩ | ⟨a, b, ha, hb, hnode, hanc⟩
          · rw [ha] at hlk; cases hlk
          · rw [ha] at hlk
            injection hlk with hfe
            subst hfe
            refine Finset.union_subset ?_ ?_
            · have hx := h2 name
              rwa [mayRaiseOf_eq_of_lookup ha] at hx
            · refine (new_exceptions_mono h1 h2 hnode hanc).trans ?_
              rw [mayRaiseOf_eq_of_lookup hb]
              exact hclo name (List.mem_cons_self _ _) b hb
        · have hx : mayRaiseOf (insertAL name
              { fe with mayRaise := fe.mayRaise ∪ new_exceptions t fe } t) nm
              = mayRaiseOf t nm := by
            simp only [mayRaiseOf]
            rw [lookupAL_insertAL_other hnm]
          rw [hx]
          exact h2 nm

theorem passIter_under {R : FnTable} {order : List String}
    (hclo : ∀ name ∈ order, ∀ fe, lookupAL R name = some fe →
      new_exceptions R fe ⊆ fe.mayRaise) :
    ∀ (n : Nat) (t : FnTable), StaticAgree t R → MRle t R →
      StaticAgree (passIter order n t) R ∧ MRle (passIter order n t) R := by
  intro n
  induction n with
  | zero => intro t h1 h2; exact ⟨h1, h2⟩
  | succ n ih =>
    intro t h1 h2
    obtain ⟨h1s, h2s⟩ := runPassAux_under order hclo t false h1 h2
    exact ih _ h1s h2s

theorem determine_exceptions_under {R : FnTable} {order : List String}
    (hclo : ∀ name ∈ order, ∀ fe, lookupAL R name = some fe →
      new_exceptions R fe ⊆ fe.mayRaise)
    {t : FnTable} (h1 : StaticAgree t R) (h2 : MRle t R) :
    MRle (determine_exceptions order t) R := by
  obtain ⟨n, heq, _⟩ := determine_exceptions_exists_iter order t
  rw [heq]
  exact (passIter_under hclo n t h1 h2).2

/-- C5: the fixed point is independent of the per-pass visiting order: for
any two orders that are permutations of each other, every function is
assigned the same final `may_raise` set. -/
theorem C5_order_independent_fixed_point (t : FnTable) (o1 o2 : List String)
    (hperm : o1.Perm o2) (name : String) :
    mayRaiseOf (determine_exceptions o1 t) name
      = mayRaiseOf (determine_exceptions o2 t) name := by
  have key : ∀ (p q : List String), p.Perm q →
      ∀ nm, mayRaiseOf (determine_exceptions p t) nm
        ⊆ mayRaiseOf (determine_exceptions q t) nm := by
    intro p q hpq nm
    have hgrow := determine_exceptions_grow q t
    have hclo : ∀ n2 ∈ p, ∀ fe,
        lookupAL (determine_exceptions q t) n2 = some fe →
        new_exceptions (determine_exceptions q t) fe ⊆ fe.mayRaise :=
      fun n2 hm => determine_exceptions_closed q t n2 (hpq.mem_iff.1 hm)
    exact determine_exceptions_under hclo (StaticAgree_of_TGrow hgrow)
      (fun nm2 => mayRaiseOf_mono hgrow nm2) nm
  exact Finset.Subset.antisymm (key o1 o2 hperm name) (key o2 o1 hperm.symm name)

/-- Witness for C5: two opposite visiting orders on the two-function file
give `F` the same final set. -/
theorem C5_witness :
    mayRaiseOf (determine_exceptions ["G", "F", "<module>"] tblFG) "F"
      = mayRaiseOf (determine_exceptions ["<module>", "F", "G"] tblFG) "F" :=
  C5_order_independent_fixed_point tblFG ["G", "F", "<module>"]
    ["<module>", "F", "G"] (by decide) "F"

/-- A name visited by the reporting loop whose entry holds a non-empty
collected access list ends the loop with its flag set. -/
theorem reportRun_sets_flag (f : String) :
    ∀ (o : List String) (st : ReportState) (g : String) (fe : FunctionInfo),
      g ∈ o → lookupAL st.functions g = some fe →
      find_unguarded_dict_accesses fe.node fe.anc ≠ [] →
      reportedOf (analyze_functions_order f o st).functions g = true := by
  intro o
  induction o with
  | nil => intro st g fe hmem; cases hmem
  | cons n rest ih =>
    intro st g fe hmem hlk hne
    by_cases hng : n = g
    · subst hng
      exact reportRun_flag_mono f rest _ n (analyze_function_sets_flag hlk hne)
    · rcases List.mem_cons.1 hmem with heq | hmem2
      · exact absurd heq.symm hng
      · obtain ⟨fe2, hlk2, hnode, hanc⟩ :=
          @analyze_function_lookup_fwd f n g st fe hlk
        refine ih (analyze_function f n st) g fe2 hmem2 hlk2 ?_
        rw [hnode, hanc]
        exact hne

/-- The fixed point preserves each known name together with its static
data. -/
theorem de_lookup_static {order : List String} {t : FnTable} {name : String}
    {fe : FunctionInfo} (h : lookupAL t name = some fe) :
    ∃ fe2, lookupAL (determine_exceptions order t) name = some fe2
      ∧ fe2.node = fe.node ∧ fe2.anc = fe.anc := by
  rcases TGrow_lookup (determine_exceptions_grow order t) name with
    ⟨h1, _⟩ | ⟨a, b, h1, h2, hnode, hanc, _, _⟩
  · rw [h] at h1; cases h1
  · rw [h] at h1
    injection h1 with hfe
    subst hfe
    exact ⟨b, h2, hnode, hanc⟩

/-- C9: in the table `analyze_file` builds (collected functions plus the
synthetic `<module>` entry whose body is the tree root), every entry whose
subtree holds an unguarded subscript anywhere — the access scan recurses
into nested function definitions — acquires the `KeyError` label at the
fixed point; this applies to every lexically enclosing function of a nested
access and to the module entry.  Moreover any unguarded subscript anywhere
in the file sets the module entry's `reported_in_function` flag during the
reporting loop. -/
theorem C9_module_and_nesting_attribution (tree : PyNode) (t0 : FnTable)
    (passOrder : List String)
    (h0 : collect_functions tree [] [] = some t0) :
    (∀ (name : String) (fe : FunctionInfo) (s : PyNode) (p : List PyNode),
      lookupAL (insertAL "<module>" ⟨tree, [], ∅, false⟩ t0) name = some fe →
      (s, p) ∈ nodesWithAnc fe.node fe.anc → s.kind = "subscript" →
      is_within_keyerror_try_except s p = false → name ∈ passOrder →
      "KeyError" ∈ mayRaiseOf (determine_exceptions passOrder
        (insertAL "<module>" ⟨tree, [], ∅, false⟩ t0)) name)
    ∧ (∀ (filename : String) (reportOrder : List String) (s : PyNode)
        (p : List PyNode) (st : ReportState),
        (s, p) ∈ nodesWithAnc tree [] → s.kind = "subscript" →
        is_within_keyerror_try_except s p = false →
        "<module>" ∈ reportOrder →
        analyze_file filename tree passOrder reportOrder = some st →
        reportedOf st.functions "<module>" = true) := by
  constructor
  · intro name fe s p hlk hmem hkind hguard horder
    obtain ⟨fe2, hlk2, hnode, hanc⟩ := @de_lookup_static passOrder _ _ _ hlk
    have hne : find_unguarded_dict_accesses fe2.node fe2.anc ≠ [] := by
      rw [hnode, hanc]
      intro hcon
      have hm2 := (mem_find_unguarded_iff fe.node fe.anc s p).2
        ⟨hmem, hkind, hguard⟩
      rw [hcon] at hm2
      cases hm2
    have hKE := new_exceptions_local_mem
      (determine_exceptions passOrder
        (insertAL "<module>" ⟨tree, [], ∅, false⟩ t0)) fe2 hne
    rw [mayRaiseOf_eq_of_lookup hlk2]
    exact determine_exceptions_closed passOrder _ name horder fe2 hlk2 hKE
  · intro filename reportOrder s p st hmem hkind hguard hmod hA
    simp only [analyze_file, h0] at hA
    injection hA with hst
    subst hst
    have hlk1 : lookupAL (insertAL "<module>" ⟨tree, [], ∅, false⟩ t0)
        "<module>" = some ⟨tree, [], ∅, false⟩ :=
      lookupAL_insertAL_self t0 "<module>" _
    obtain ⟨fe2, hlk2, hnode, hanc⟩ := @de_lookup_static passOrder _ _ _ hlk1
    have hne : find_unguarded_dict_accesses fe2.node fe2.anc ≠ [] := by
      rw [hnode, hanc]
      intro hcon
      have hm2 := (mem_find_unguarded_iff tree [] s p).2 ⟨hmem, hkind, hguard⟩
      rw [hcon] at hm2
      cases hm2
    exact reportRun_sets_flag filename reportOrder _ "<module>" fe2 hmod
      hlk2 hne

/-- Witness for C9 on the nested-function file: the access inside `inner`
is attributed to `outer` and to the module entry, and the module flag is
set by the reporting loop. -/
theorem C9_witness :
    "KeyError" ∈ mayRaiseOf
      (determine_exceptions ["outer", "inner", "<module>"] tblNested) "outer"
    ∧ "KeyError" ∈ mayRaiseOf
      (determine_exceptions ["outer", "inner", "<module>"] tblNested)
      "<module>"
    ∧ reportedOf stNested.functions "<module>" = true := by
  have h9 := C9_module_and_nesting_attribution treeNested tbl0Nested
    ["outer", "inner", "<module>"] (by decide)
  refine ⟨?_, ?_, ?_⟩
  · exact h9.1 "outer" feOuter (pySubscript 2) nestedPath (by decide)
      (by decide) (by decide) (by decide) (by decide)
  · exact h9.1 "<module>" ⟨treeNested, [], ∅, false⟩ (pySubscript 2)
      nestedPath (by decide) (by decide) (by decide) (by decide) (by decide)
  · have h2 : determine_exceptions ["outer", "inner", "<module>"] tblNested
        = tblNestedFin := by
      rw [determine_exceptions_go (by decide)]
      exact determine_exceptions_stop (by decide)
    have hA : analyze_file "a.py" treeNested ["outer", "inner", "<module>"]
        ["outer", "inner", "<module>"] = some stNested :=
      (analyze_file_eval "a.py" treeNested ["outer", "inner", "<module>"]
        ["outer", "inner", "<module>"] tbl0Nested tblNestedFin (by decide)
        h2).trans rfl
    exact h9.2 "a.py" ["outer", "inner", "<module>"] (pySubscript 2)
      nestedPath stNested (by decide) (by decide) (by decide) (by decide) hA

end PyWrong
